import Mathlib

/-!
Shallow embedding of `src/rescheduler.go` (package `rescheduler`).

The Go program is a run-coalescing scheduler:

* `Rescheduler` holds a mutex `lock`, a packed state byte `me`
  (`R_RUNNING byte = 1`, `R_RERUN byte = 2`), the caller-supplied `call`
  function and a channel `done` (`make(chan struct\x7b\x7d, 1)`); nothing is
  ever sent on `done`, it is only ever closed (and replaced).
* `Run()` locks, and if `r.me&R_RUNNING == 1` sets `r.me |= R_RERUN` and
  returns; otherwise sets `r.me = R_RUNNING`, unlocks and spawns the
  goroutine `threadRun()`.
* `threadRun()` loops: it runs `r.call()` outside the lock, then locks and
  if `r.me&R_RERUN == 0` sets `r.me = 0`, closes `r.done`, replaces it with
  a fresh channel and exits; otherwise flips the rerun flag
  (`r.me ^= R_RERUN`) and loops.
* `Wait()` receives from `r.done`, which blocks until that channel is
  closed.

The embedding is an interleaved labelled transition system:

* every lock-protected critical section of the Go code is a single atomic
  event (the mutex totally orders them); `Run` is one event whose
  IDLE branch also records the spawned goroutine, since the only effect of
  the gap between `unlock` and `go r.threadRun()` is to delay the worker's
  first action, which the nondeterministic scheduler already allows;
* the worker goroutine is explicit in the state as a list of `Phase`s —
  `beforeWork` (about to enter `r.call()`), `inWork` (inside `r.call()`),
  `afterWork` (returned from `r.call()`, about to take the lock).  A list
  is used, not an option, so that "at most one worker ever exists" is a
  proved property of the transition system rather than a modelling
  assumption; `workStart`/`workEnd` delimit one execution of `call`,
  making executions non-atomic so that `Run` calls interleave with them;
* the `done` channel is a generation counter `gen`: generation `g` is the
  channel created `g`-th; generations `< gen` are exactly the closed ones
  (`threadRun` closes the current channel and immediately installs a fresh
  one under the same lock, so channels are closed in creation order and
  only the newest is open).  Nothing is ever sent on the channel, so a
  receive completes exactly when the received-from channel is closed;
* a `Wait()` caller is the `waiter` slot: `waitBegin` reads the current
  `r.done` pointer (recording `gen`), `waitEnd` is the receive completing,
  enabled once the recorded generation is closed.  One waiter slot
  suffices for the claims below, which each concern a single waiter;
* `runCount` counts completed executions of `call` (incremented at
  `workEnd`);
* `me` is a Go `byte`; the only values ever written are `0`, `R_RUNNING`,
  `me ||| R_RERUN` and `me ^^^ R_RERUN`, all of which stay below `256`, so
  plain `Nat` bitwise arithmetic coincides with `byte` arithmetic.
-/

namespace Rescheduler

/-- `R_RUNNING byte = 1` from the source. -/
def R_RUNNING : Nat := 1

/-- `R_RERUN byte = 2` from the source. -/
def R_RERUN : Nat := 2

/-- Phase of a worker goroutine executing `threadRun`. -/
inductive Phase
  | beforeWork
  | inWork
  | afterWork
deriving DecidableEq, Repr

/-- Phase of a `Wait()` caller: not yet called, blocked on the channel it
read (recorded by generation), or returned. -/
inductive WaiterPhase
  | notStarted
  | waiting (g : Nat)
  | released
deriving DecidableEq, Repr

/-- Global state of one `Rescheduler` instance plus its environment:
the packed byte `me`, the worker goroutines with their phases, the `done`
channel generation (generations `< gen` are closed), the number of
completed `call` executions, and one `Wait()` caller. -/
structure RState where
  me : Nat
  workers : List Phase
  gen : Nat
  runCount : Nat
  waiter : WaiterPhase
deriving DecidableEq, Repr

/-- Events: one per atomic step of the interleaved system. -/
inductive Ev
  | run
  | workStart (i : Nat)
  | workEnd (i : Nat)
  | check (i : Nat)
  | waitBegin
  | waitEnd
deriving DecidableEq, Repr

/-- The body of `Run()` (one critical section plus the goroutine spawn):
if `r.me&R_RUNNING == 1` set the rerun flag, else set `me = R_RUNNING` and
spawn a worker. -/
def runStep (s : RState) : RState :=
  if s.me &&& R_RUNNING = 1 then
    { s with me := s.me ||| R_RERUN }
  else
    { s with me := R_RUNNING, workers := s.workers ++ [Phase.beforeWork] }

/-- The critical section of `threadRun` after `r.call()` returns: if
`r.me&R_RERUN == 0` clear the state, close `r.done` (advance the
generation, arming a fresh channel) and exit (remove worker `i`); else
flip the rerun flag and loop (worker `i` is about to call again). -/
def checkStep (s : RState) (i : Nat) : RState :=
  if s.me &&& R_RERUN = 0 then
    { s with me := 0, gen := s.gen + 1, workers := s.workers.eraseIdx i }
  else
    { s with me := s.me ^^^ R_RERUN, workers := s.workers.set i Phase.beforeWork }

/-- One atomic step of the interleaved system; `none` when the event is
not enabled. -/
def step (s : RState) : Ev → Option RState
  | Ev.run => some (runStep s)
  | Ev.workStart i =>
      if s.workers[i]? = some Phase.beforeWork then
        some { s with workers := s.workers.set i Phase.inWork }
      else none
  | Ev.workEnd i =>
      if s.workers[i]? = some Phase.inWork then
        some { s with workers := s.workers.set i Phase.afterWork,
                      runCount := s.runCount + 1 }
      else none
  | Ev.check i =>
      if s.workers[i]? = some Phase.afterWork then some (checkStep s i) else none
  | Ev.waitBegin =>
      match s.waiter with
      | WaiterPhase.notStarted => some { s with waiter := WaiterPhase.waiting s.gen }
      | _ => none
  | Ev.waitEnd =>
      match s.waiter with
      | WaiterPhase.waiting g =>
          if g < s.gen then some { s with waiter := WaiterPhase.released } else none
      | _ => none

/-- Run a schedule (list of events) from a state; `none` if some event in
it is not enabled at its turn. -/
def execFrom (s : RState) : List Ev → Option RState
  | [] => some s
  | e :: t =>
      match step s e with
      | some v => execFrom v t
      | none => none

/-- The state produced by `NewRescheduler`: `me = 0`, no worker, a fresh
unsignalled `done` channel, no completed executions, `Wait` not called. -/
def init : RState :=
  { me := 0, workers := [], gen := 0, runCount := 0, waiter := WaiterPhase.notStarted }

/-- States reachable from `init` by any interleaving. -/
inductive Reachable : RState → Prop
  | start : Reachable init
  | next {s s' : RState} {e : Ev} : Reachable s → step s e = some s' → Reachable s'

/-- Executions of `call` still owed by a worker: the current one counts
until its `workEnd`, so `afterWork` contributes nothing. -/
def phasePending : Phase → Nat
  | Phase.afterWork => 0
  | _ => 1

/-- Completed-`call` executions still owed before the instance can go
idle: one per owed rerun, one per worker whose current execution has not
yet ended. -/
def remExecs (s : RState) : Nat :=
  (if s.me &&& R_RERUN = 0 then 0 else 1) + (s.workers.map phasePending).sum

/-- Workers that have not yet entered `call` for their current iteration. -/
def phaseNotStarted : Phase → Nat
  | Phase.beforeWork => 1
  | _ => 0

/-- Executions of `call` that are owed and have not yet started. -/
def pendingStarts (s : RState) : Nat :=
  (if s.me &&& R_RERUN = 0 then 0 else 1) + (s.workers.map phaseNotStarted).sum

/-- Number of workers currently inside `call`. -/
def inWorkCount (s : RState) : Nat :=
  (s.workers.map fun p => if p = Phase.inWork then 1 else 0).sum

/-- The packed byte only ever holds `0`, `R_RUNNING`, or
`R_RUNNING ||| R_RERUN`. -/
def goodMe (s : RState) : Prop := s.me = 0 ∨ s.me = 1 ∨ s.me = 3

/-- The structural invariant of the scheduler: the running bit tracks the
existence of a worker, there is at most one worker, and the byte holds
one of its three legal values. -/
def Inv (s : RState) : Prop :=
  (s.me &&& R_RUNNING = 1 ↔ s.workers ≠ []) ∧ s.workers.length ≤ 1 ∧ goodMe s

instance (s : RState) : Decidable (goodMe s) := by unfold goodMe; infer_instance

instance (s : RState) : Decidable (Inv s) := by unfold Inv; infer_instance

/-- State after `Run()` on a fresh instance. -/
def sA : RState :=
  { me := 1, workers := [Phase.beforeWork], gen := 0, runCount := 0,
    waiter := WaiterPhase.notStarted }

/-- State once the spawned worker has entered `call`. -/
def sB : RState :=
  { me := 1, workers := [Phase.inWork], gen := 0, runCount := 0,
    waiter := WaiterPhase.notStarted }

/-- State during the first execution of `call` with the rerun flag set:
the target of any burst of `Run()` calls made while the worker runs. -/
def s3 : RState :=
  { me := 3, workers := [Phase.inWork], gen := 0, runCount := 0,
    waiter := WaiterPhase.notStarted }

/-- Fresh instance on which `Wait()` has been called (and nothing else):
the waiter is blocked on generation `0`, which is not closed. -/
def initW : RState :=
  { me := 0, workers := [], gen := 0, runCount := 0, waiter := WaiterPhase.waiting 0 }

/-- Idle state after one complete run-cycle of a single execution. -/
def sIdle1 : RState :=
  { me := 0, workers := [], gen := 1, runCount := 1, waiter := WaiterPhase.notStarted }

/-- Running state with the worker past `call`, no rerun owed, and a waiter
blocked on the current channel. -/
def sW1 : RState :=
  { me := 1, workers := [Phase.afterWork], gen := 0, runCount := 1,
    waiter := WaiterPhase.waiting 0 }

/-- Running state with the worker past `call` and a rerun owed. -/
def sR3 : RState :=
  { me := 3, workers := [Phase.afterWork], gen := 0, runCount := 1,
    waiter := WaiterPhase.notStarted }

/-- Under the invariant, every enabled step of the system has one of
eight concrete shapes.  All further lemmas case on this enumeration. -/
theorem trans_enum {s s' : RState} {e : Ev} (hI : Inv s) (h : step s e = some s') :
    (e = Ev.run ∧ s.me = 0 ∧ s.workers = [] ∧
       s' = { s with me := 1, workers := [Phase.beforeWork] })
  ∨ (e = Ev.run ∧ (s.me = 1 ∨ s.me = 3) ∧ s' = { s with me := 3 })
  ∨ (e = Ev.workStart 0 ∧ (s.me = 1 ∨ s.me = 3) ∧ s.workers = [Phase.beforeWork] ∧
       s' = { s with workers := [Phase.inWork] })
  ∨ (e = Ev.workEnd 0 ∧ (s.me = 1 ∨ s.me = 3) ∧ s.workers = [Phase.inWork] ∧
       s' = { s with workers := [Phase.afterWork], runCount := s.runCount + 1 })
  ∨ (e = Ev.check 0 ∧ s.me = 1 ∧ s.workers = [Phase.afterWork] ∧
       s' = { s with me := 0, gen := s.gen + 1, workers := [] })
  ∨ (e = Ev.check 0 ∧ s.me = 3 ∧ s.workers = [Phase.afterWork] ∧
       s' = { s with me := 1, workers := [Phase.beforeWork] })
  ∨ (e = Ev.waitBegin ∧ s.waiter = WaiterPhase.notStarted ∧
       s' = { s with waiter := WaiterPhase.waiting s.gen })
  ∨ (∃ g0, e = Ev.waitEnd ∧ s.waiter = WaiterPhase.waiting g0 ∧ g0 < s.gen ∧
       s' = { s with waiter := WaiterPhase.released }) := by
  obtain ⟨hiff, hlen, hme⟩ := hI
  have hws : s.workers = [] ∨ ∃ p, s.workers = [p] := by
    rcases hw : s.workers with _ | ⟨p, l⟩
    · exact Or.inl rfl
    · rcases l with _ | ⟨q, l'⟩
      · exact Or.inr ⟨p, rfl⟩
      · rw [hw] at hlen; simp at hlen
  have hm13 : s.workers ≠ [] → s.me = 1 ∨ s.me = 3 := by
    intro hne
    have h1 := hiff.mpr hne
    rcases hme with h0 | h0 | h0
    · rw [h0] at h1; exact absurd h1 (by decide)
    · exact Or.inl h0
    · exact Or.inr h0
  cases e with
  | run =>
    simp only [step, Option.some.injEq] at h
    rcases hme with h0 | h0 | h0
    · have hwnil : s.workers = [] := by
        rcases hws with hw | ⟨p, hw⟩
        · exact hw
        · exact absurd (hiff.mpr (by simp [hw])) (by rw [h0]; decide)
      refine Or.inl ⟨rfl, h0, hwnil, ?_⟩
      rw [← h]
      simp only [runStep, h0]
      rw [if_neg (by decide)]
      simp [hwnil, R_RUNNING]
    · refine Or.inr (Or.inl ⟨rfl, Or.inl h0, ?_⟩)
      rw [← h]
      simp only [runStep, h0]
      rw [if_pos (by decide), (by decide : (1 : Nat) ||| R_RERUN = 3)]
    · refine Or.inr (Or.inl ⟨rfl, Or.inr h0, ?_⟩)
      rw [← h]
      simp only [runStep, h0]
      rw [if_pos (by decide), (by decide : (3 : Nat) ||| R_RERUN = 3)]
  | workStart i =>
    simp only [step] at h
    split at h
    · rename_i hg
      simp only [Option.some.injEq] at h
      subst h
      rcases hws with hw | ⟨p, hw⟩
      · rw [hw] at hg; simp at hg
      · cases i with
        | zero =>
          rw [hw] at hg
          simp only [List.getElem?_cons_zero, Option.some.injEq] at hg
          subst hg
          exact Or.inr (Or.inr (Or.inl ⟨rfl, hm13 (by simp [hw]), hw, by simp [hw]⟩))
        | succ n =>
          rw [hw] at hg; simp at hg
    · exact absurd h (by simp)
  | workEnd i =>
    simp only [step] at h
    split at h
    · rename_i hg
      simp only [Option.some.injEq] at h
      subst h
      rcases hws with hw | ⟨p, hw⟩
      · rw [hw] at hg; simp at hg
      · cases i with
        | zero =>
          rw [hw] at hg
          simp only [List.getElem?_cons_zero, Option.some.injEq] at hg
          subst hg
          exact Or.inr (Or.inr (Or.inr (Or.inl
            ⟨rfl, hm13 (by simp [hw]), hw, by simp [hw]⟩)))
        | succ n =>
          rw [hw] at hg; simp at hg
    · exact absurd h (by simp)
  | check i =>
    simp only [step] at h
    split at h
    · rename_i hg
      simp only [Option.some.injEq] at h
      rcases hws with hw | ⟨p, hw⟩
      · rw [hw] at hg; simp at hg
      · cases i with
        | zero =>
          rw [hw] at hg
          simp only [List.getElem?_cons_zero, Option.some.injEq] at hg
          subst hg
          rcases hm13 (by simp [hw]) with h0 | h0
          · refine Or.inr (Or.inr (Or.inr (Or.inr (Or.inl ⟨rfl, h0, hw, ?_⟩))))
            rw [← h]
            simp only [checkStep, h0]
            rw [if_pos (by decide)]
            simp [hw]
          · refine Or.inr (Or.inr (Or.inr (Or.inr (Or.inr (Or.inl ⟨rfl, h0, hw, ?_⟩)))))
            rw [← h]
            simp only [checkStep, h0]
            rw [if_neg (by decide), hw, (by decide : (3 : Nat) ^^^ R_RERUN = 1)]
            rfl
        | succ n =>
          rw [hw] at hg; simp at hg
    · exact absurd h (by simp)
  | waitBegin =>
    simp only [step] at h
    split at h
    · rename_i hw1
      simp only [Option.some.injEq] at h
      exact Or.inr (Or.inr (Or.inr (Or.inr (Or.inr (Or.inr (Or.inl
        ⟨rfl, hw1, h.symm⟩))))))
    · simp at h
  | waitEnd =>
    simp only [step] at h
    split at h
    · rename_i g0 hw1
      split at h
      · rename_i hlt
        simp only [Option.some.injEq] at h
        exact Or.inr (Or.inr (Or.inr (Or.inr (Or.inr (Or.inr (Or.inr
          ⟨g0, rfl, hw1, hlt, h.symm⟩))))))
      · simp at h
    · simp at h

/-- The structural invariant is preserved by every step. -/
theorem step_inv {s s' : RState} {e : Ev} (hI : Inv s) (h : step s e = some s') :
    Inv s' := by
  obtain ⟨hiff, hlen, hme⟩ := hI
  rcases trans_enum ⟨hiff, hlen, hme⟩ h with
    ⟨he, h0, hw, rfl⟩ | ⟨he, h0, rfl⟩ | ⟨he, h0, hw, rfl⟩ | ⟨he, h0, hw, rfl⟩ |
    ⟨he, h0, hw, rfl⟩ | ⟨he, h0, hw, rfl⟩ | ⟨he, hw1, rfl⟩ | ⟨g0, he, hw1, hlt, rfl⟩
  · exact ⟨by simp [R_RUNNING], by simp, Or.inr (Or.inl rfl)⟩
  · have hne : s.workers ≠ [] :=
      hiff.mp (by rcases h0 with h0 | h0 <;> rw [h0] <;> decide)
    exact ⟨⟨fun _ => hne, fun _ => by simp [R_RUNNING]⟩, hlen, Or.inr (Or.inr rfl)⟩
  · exact ⟨⟨fun _ => by simp, fun _ => by
      rcases h0 with h0 | h0 <;> simp [h0, R_RUNNING]⟩, by simp, hme⟩
  · exact ⟨⟨fun _ => by simp, fun _ => by
      rcases h0 with h0 | h0 <;> simp [h0, R_RUNNING]⟩, by simp, hme⟩
  · exact ⟨by simp [R_RUNNING], by simp, Or.inl rfl⟩
  · exact ⟨by simp [R_RUNNING], by simp, Or.inr (Or.inl rfl)⟩
  · exact ⟨hiff, hlen, hme⟩
  · exact ⟨hiff, hlen, hme⟩

/-- Per-step bookkeeping facts used by the claim proofs: the measure
`runCount + remExecs` never decreases and is constant off `run` events;
`runCount` and `gen` are monotone; `gen` advances only into states owing
no further execution; the waiter field moves only at wait events;
`pendingStarts` drops only at `workStart`; `inWorkCount` drops only at
`workEnd` and is positive right after a `workStart`. -/
theorem step_facts {s s' : RState} {e : Ev} (hI : Inv s) (h : step s e = some s') :
    s.runCount + remExecs s ≤ s'.runCount + remExecs s'
    ∧ (e ≠ Ev.run → s'.runCount + remExecs s' = s.runCount + remExecs s)
    ∧ s.runCount ≤ s'.runCount
    ∧ s.gen ≤ s'.gen
    ∧ (s.gen < s'.gen → remExecs s' = 0)
    ∧ (e ≠ Ev.waitBegin → e ≠ Ev.waitEnd → s'.waiter = s.waiter)
    ∧ ((∀ i, e ≠ Ev.workStart i) → pendingStarts s ≤ pendingStarts s')
    ∧ ((∀ i, e ≠ Ev.workEnd i) → inWorkCount s ≤ inWorkCount s')
    ∧ (∀ i, e = Ev.workStart i → 1 ≤ inWorkCount s') := by
  rcases trans_enum hI h with
    ⟨he, h0, hw, rfl⟩ | ⟨he, h0, rfl⟩ | ⟨he, h0, hw, rfl⟩ | ⟨he, h0, hw, rfl⟩ |
    ⟨he, h0, hw, rfl⟩ | ⟨he, h0, hw, rfl⟩ | ⟨he, hw1, rfl⟩ | ⟨g0, he, hw1, hlt, rfl⟩ <;>
    subst he
  · simp [remExecs, pendingStarts, inWorkCount, phasePending, phaseNotStarted, h0, hw,
      R_RERUN, R_RUNNING]
  · rcases h0 with h0 | h0 <;>
      simp [remExecs, pendingStarts, inWorkCount, phasePending, phaseNotStarted, h0,
        R_RERUN, R_RUNNING]
  · rcases h0 with h0 | h0 <;>
      simp [remExecs, pendingStarts, inWorkCount, phasePending, phaseNotStarted, h0, hw,
        R_RERUN, R_RUNNING]
  · rcases h0 with h0 | h0 <;>
      simp [remExecs, pendingStarts, inWorkCount, phasePending, phaseNotStarted, h0, hw,
        R_RERUN, R_RUNNING]
  · simp [remExecs, pendingStarts, inWorkCount, phasePending, phaseNotStarted, h0, hw,
      R_RERUN, R_RUNNING]
  · simp [remExecs, pendingStarts, inWorkCount, phasePending, phaseNotStarted, h0, hw,
      R_RERUN, R_RUNNING]
  · simp [remExecs, pendingStarts, inWorkCount, phasePending, phaseNotStarted,
      R_RERUN, R_RUNNING]
  · simp [remExecs, pendingStarts, inWorkCount, phasePending, phaseNotStarted,
      R_RERUN, R_RUNNING]

/-- The structural invariant holds in every reachable state. -/
theorem reachable_inv {s : RState} (h : Reachable s) : Inv s := by
  induction h with
  | start => decide
  | next h1 h2 ih => exact step_inv ih h2

/-- Split one event off a successful schedule. -/
theorem execFrom_cons {s s' : RState} {e : Ev} {t : List Ev}
    (hx : execFrom s (e :: t) = some s') :
    ∃ v, step s e = some v ∧ execFrom v t = some s' := by
  cases hv : step s e with
  | none =>
      simp only [execFrom, hv] at hx
      exact Option.noConfusion hx
  | some v =>
      simp only [execFrom, hv] at hx
      exact ⟨v, rfl, hx⟩

/-- Invariant preservation plus monotonicity of the execution measure,
`runCount` and `gen` along any schedule. -/
theorem exec_facts (t : List Ev) : ∀ {s s' : RState}, Inv s →
    execFrom s t = some s' →
    Inv s' ∧ s.runCount + remExecs s ≤ s'.runCount + remExecs s'
    ∧ s.runCount ≤ s'.runCount ∧ s.gen ≤ s'.gen := by
  induction t with
  | nil =>
      intro s s' hI hx
      simp [execFrom] at hx
      subst hx
      exact ⟨hI, le_rfl, le_rfl, le_rfl⟩
  | cons e t ih =>
      intro s s' hI hx
      obtain ⟨v, hv, hx'⟩ := execFrom_cons hx
      have hf := step_facts hI hv
      obtain ⟨hI', hm, hrc, hg⟩ := ih (step_inv hI hv) hx'
      exact ⟨hI', le_trans hf.1 hm, le_trans hf.2.2.1 hrc, le_trans hf.2.2.2.1 hg⟩

/-- Along a schedule containing no `run` event, the execution measure is
constant: no new executions are requested, and exactly the owed ones can
complete. -/
theorem exec_const_of_noRun (t : List Ev) : ∀ {s s' : RState}, Inv s →
    Ev.run ∉ t → execFrom s t = some s' →
    s'.runCount + remExecs s' = s.runCount + remExecs s := by
  induction t with
  | nil =>
      intro s s' _ _ hx
      simp [execFrom] at hx
      subst hx
      rfl
  | cons e t ih =>
      intro s s' hI hmem hx
      obtain ⟨v, hv, hx'⟩ := execFrom_cons hx
      have hne : e ≠ Ev.run := by
        intro hh
        subst hh
        exact hmem (List.mem_cons_self _ _)
      calc s'.runCount + remExecs s'
          = v.runCount + remExecs v :=
            ih (step_inv hI hv) (fun hh => hmem (List.mem_cons_of_mem e hh)) hx'
        _ = s.runCount + remExecs s := (step_facts hI hv).2.1 hne

/-- Schedules preserve reachability. -/
theorem exec_reachable (t : List Ev) : ∀ {s s' : RState}, Reachable s →
    execFrom s t = some s' → Reachable s' := by
  induction t with
  | nil =>
      intro s s' hr hx
      simp [execFrom] at hx
      subst hx
      exact hr
  | cons e t ih =>
      intro s s' hr hx
      obtain ⟨v, hv, hx'⟩ := execFrom_cons hx
      exact ih (Reachable.next hr hv) hx'

/-- A waiter blocked on generation `g0` is released only in a state whose
generation exceeds `g0`: its channel must have been closed meanwhile. -/
theorem exec_released_gen (t : List Ev) : ∀ {s s' : RState} {g0 : Nat}, Inv s →
    s.waiter = WaiterPhase.waiting g0 → execFrom s t = some s' →
    s'.waiter = WaiterPhase.released → g0 < s'.gen := by
  induction t with
  | nil =>
      intro s s' g0 _ hw hx hrel
      simp [execFrom] at hx
      subst hx
      rw [hw] at hrel
      cases hrel
  | cons e t ih =>
      intro s s' g0 hI hw hx hrel
      obtain ⟨v, hv, hx'⟩ := execFrom_cons hx
      have hIv := step_inv hI hv
      by_cases hb : e = Ev.waitBegin
      · subst hb
        simp only [step, hw] at hv
        exact Option.noConfusion hv
      · by_cases hE : e = Ev.waitEnd
        · subst hE
          simp only [step, hw] at hv
          split at hv
          · rename_i hlt
            simp only [Option.some.injEq] at hv
            subst hv
            exact lt_of_lt_of_le hlt (exec_facts t hIv hx').2.2.2
          · exact absurd hv (by simp)
        · have hwv : v.waiter = s.waiter := (step_facts hI hv).2.2.2.2.2.1 hb hE
          exact ih hIv (hwv.trans hw) hx' hrel

/-- Core lemma for wait correctness: when a waiter admitted at generation
`g0` is released by the end of a schedule, every execution counted by a
lower bound `C` on the measure has completed.  The bound `hG` records
that if `g0` was already closed the count was already reached. -/
theorem exec_wait_bound (t : List Ev) : ∀ {s s' : RState} {g0 C : Nat}, Inv s →
    s.waiter = WaiterPhase.waiting g0 → execFrom s t = some s' →
    C ≤ s.runCount + remExecs s → (g0 < s.gen → C ≤ s.runCount) →
    s'.waiter = WaiterPhase.released → C ≤ s'.runCount := by
  induction t with
  | nil =>
      intro s s' g0 C _ hw hx _ _ hrel
      simp [execFrom] at hx
      subst hx
      rw [hw] at hrel
      cases hrel
  | cons e t ih =>
      intro s s' g0 C hI hw hx hC hG hrel
      obtain ⟨v, hv, hx'⟩ := execFrom_cons hx
      have hIv := step_inv hI hv
      by_cases hb : e = Ev.waitBegin
      · subst hb
        simp only [step, hw] at hv
        exact Option.noConfusion hv
      · by_cases hE : e = Ev.waitEnd
        · subst hE
          simp only [step, hw] at hv
          split at hv
          · rename_i hlt
            simp only [Option.some.injEq] at hv
            subst hv
            exact le_trans (hG hlt) (exec_facts t hIv hx').2.2.1
          · exact absurd hv (by simp)
        · have hwv : v.waiter = s.waiter := (step_facts hI hv).2.2.2.2.2.1 hb hE
          refine ih hIv (hwv.trans hw) hx' (le_trans hC (step_facts hI hv).1) ?_ hrel
          intro hlt2
          by_cases hgs : g0 < s.gen
          · exact le_trans (hG hgs) (step_facts hI hv).2.2.1
          · have h5 := (step_facts hI hv).2.2.2.2.1 (by omega)
            have h1 := le_trans hC (step_facts hI hv).1
            omega

/-- From a state with a worker inside `call`, any schedule reaching a
worker-free state contains a completed execution. -/
theorem exec_workEnd_of_inWork (t : List Ev) : ∀ {s s' : RState}, Inv s →
    1 ≤ inWorkCount s → execFrom s t = some s' → s'.workers = [] →
    ∃ j, Ev.workEnd j ∈ t := by
  induction t with
  | nil =>
      intro s s' _ h1 hx hws
      simp [execFrom] at hx
      subst hx
      simp [inWorkCount, hws] at h1
  | cons e t ih =>
      intro s s' hI h1 hx hws
      obtain ⟨v, hv, hx'⟩ := execFrom_cons hx
      by_cases hE : ∃ j, e = Ev.workEnd j
      · obtain ⟨j, rfl⟩ := hE
        exact ⟨j, List.mem_cons_self _ _⟩
      · push_neg at hE
        have h2 := (step_facts hI hv).2.2.2.2.2.2.2.1 hE
        obtain ⟨j, hj⟩ := ih (step_inv hI hv) (le_trans h1 h2) hx' hws
        exact ⟨j, List.mem_cons_of_mem _ hj⟩

/-- From a state owing an execution that has not yet started, any schedule
reaching a worker-free state performs a `workStart` and, after it, a
`workEnd`: an execution starting inside the schedule runs to completion
within it. -/
theorem exec_start_end_decomp (t : List Ev) : ∀ {s s' : RState}, Inv s →
    1 ≤ pendingStarts s → execFrom s t = some s' → s'.workers = [] →
    ∃ t1 i t2, t = t1 ++ Ev.workStart i :: t2 ∧ ∃ j, Ev.workEnd j ∈ t2 := by
  induction t with
  | nil =>
      intro s s' hI h1 hx hws
      simp [execFrom] at hx
      subst hx
      obtain ⟨hiff, hlen, hme⟩ := hI
      have hm0 : s.me = 0 := by
        rcases hme with h0 | h0 | h0
        · exact h0
        · exact absurd (hiff.mp (by rw [h0]; decide)) (by simp [hws])
        · exact absurd (hiff.mp (by rw [h0]; decide)) (by simp [hws])
      simp [pendingStarts, hm0, hws, R_RERUN] at h1
  | cons e t ih =>
      intro s s' hI h1 hx hws
      obtain ⟨v, hv, hx'⟩ := execFrom_cons hx
      have hIv := step_inv hI hv
      by_cases hS : ∃ i, e = Ev.workStart i
      · obtain ⟨i, rfl⟩ := hS
        have h2 := (step_facts hI hv).2.2.2.2.2.2.2.2 i rfl
        obtain ⟨j, hj⟩ := exec_workEnd_of_inWork t hIv h2 hx' hws
        exact ⟨[], i, t, rfl, j, hj⟩
      · push_neg at hS
        have h2 := (step_facts hI hv).2.2.2.2.2.2.1 hS
        obtain ⟨t1, i, t2, hdec, j, hj⟩ := ih hIv (le_trans h1 h2) hx' hws
        exact ⟨e :: t1, i, t2, by rw [hdec]; rfl, j, hj⟩

/-- A burst of redundant `Run()` calls in the coalesced state is a no-op:
the rerun flag is already set. -/
theorem run_fixed_s3 : ∀ n, execFrom s3 (List.replicate n Ev.run) = some s3 := by
  have h3 : step s3 Ev.run = some s3 := by decide
  intro n
  induction n with
  | zero => rfl
  | succ m ih => simp only [List.replicate_succ, execFrom, h3, ih]

/-- C5: the `Run()` transition function.  If the state is IDLE (`me = 0`),
`Run()` sets the state to RUNNING (`me = R_RUNNING`) and launches exactly
one worker cycle (exactly one `beforeWork` worker is appended); `Run()` is
a single always-enabled atomic step, so it returns without blocking on the
work function.  If the state is RUNNING (`me = 1`) or
RUNNING_WITH_RERUN_PENDING (`me = 3`), `Run()` sets the state to
RUNNING_WITH_RERUN_PENDING (`me = 3`) and returns immediately with the
worker list unchanged: no new worker is launched. -/
theorem run_transition_function (s : RState) :
    (s.me = 0 → step s Ev.run =
      some { s with me := R_RUNNING, workers := s.workers ++ [Phase.beforeWork] })
    ∧ ((s.me = 1 ∨ s.me = 3) → step s Ev.run = some { s with me := 3 }) := by
  constructor
  · intro h0
    simp only [step, runStep, h0]
    rw [if_neg (by decide)]
  · rintro (h0 | h0)
    · simp only [step, runStep, h0]
      rw [if_pos (by decide), (by decide : (1 : Nat) ||| R_RERUN = 3)]
    · simp only [step, runStep, h0]
      rw [if_pos (by decide), (by decide : (3 : Nat) ||| R_RERUN = 3)]

/-- Witness for C5 at the fresh instance (IDLE branch) and at the
coalesced running state (RUNNING_WITH_RERUN_PENDING branch). -/
theorem run_transition_function_witness :
    step init Ev.run =
      some { init with me := R_RUNNING, workers := init.workers ++ [Phase.beforeWork] }
    ∧ step s3 Ev.run = some { s3 with me := 3 } :=
  ⟨(run_transition_function init).1 rfl, (run_transition_function s3).2 (Or.inr rfl)⟩

/-- C8: `Run()` is total and non-blocking.  In every state of the instance
the `run` event is enabled (`Run()` cannot fail) and is one atomic
non-suspending step; it only mutates the in-memory transition state
(`me`, and possibly scheduling a worker): it completes no execution,
closes no channel (`gen` is unchanged) and touches no waiter. -/
theorem run_total_nonblocking (s : RState) :
    ∃ s', step s Ev.run = some s' ∧ s'.gen = s.gen ∧ s'.runCount = s.runCount ∧
      s'.waiter = s.waiter := by
  refine ⟨runStep s, rfl, ?_, ?_, ?_⟩ <;> (simp only [runStep]; split <;> rfl)

/-- C2: mutual exclusion.  In every reachable state at most one worker is
inside the caller-supplied `call` function: no two executions of `call`
for the same instance ever run concurrently.  (The proof goes through the
invariant that at most one worker goroutine exists at all, because a new
one is launched only on the transition out of IDLE and reruns reuse the
same worker.) -/
theorem mutual_exclusion (s : RState) (h : Reachable s) : inWorkCount s ≤ 1 := by
  obtain ⟨hiff, hlen, hme⟩ := reachable_inv h
  rcases hws : s.workers with _ | ⟨p, l⟩
  · simp [inWorkCount, hws]
  · rcases l with _ | ⟨q, l'⟩
    · simp only [inWorkCount, hws, List.map_cons, List.map_nil, List.sum_cons,
        List.sum_nil]
      split <;> omega
    · rw [hws] at hlen
      simp at hlen

/-- Witness for C2 at a reachable state with a worker executing `call`. -/
theorem mutual_exclusion_witness : inWorkCount sB ≤ 1 := by
  have h1 : step init Ev.run = some sA := by decide
  have h2 : step sA (Ev.workStart 0) = some sB := by decide
  exact mutual_exclusion sB (Reachable.next (Reachable.next Reachable.start h1) h2)

/-- C9: in every reachable state the packed state byte `me` is `0` (idle),
`1` (`R_RUNNING`) or `3` (`R_RUNNING ||| R_RERUN`); the value `2` — rerun
flag set while the running flag is clear — is unreachable. -/
theorem state_byte_invariant (s : RState) (h : Reachable s) :
    (s.me = 0 ∨ s.me = 1 ∨ s.me = 3) ∧ s.me ≠ 2 := by
  have hme := (reachable_inv h).2.2
  refine ⟨hme, ?_⟩
  rcases hme with h0 | h0 | h0 <;> rw [h0] <;> decide

/-- Witness for C9 at a reachable state with both flags set. -/
theorem state_byte_invariant_witness :
    (s3.me = 0 ∨ s3.me = 1 ∨ s3.me = 3) ∧ s3.me ≠ 2 := by
  have h1 : step init Ev.run = some sA := by decide
  have h2 : step sA (Ev.workStart 0) = some sB := by decide
  have h3 : step sB Ev.run = some s3 := by decide
  exact state_byte_invariant s3
    (Reachable.next (Reachable.next (Reachable.next Reachable.start h1) h2) h3)

/-- C4: the worker cycle step after each completion of `call`.  With
worker `i` at the post-`call` point: if the rerun flag is clear, the step
sets the state to IDLE (`me = 0`), closes and rearms the completion
channel (`gen + 1`; any waiter blocked on a generation `≤ gen` — all
current waiters — becomes releasable) and the worker exits (is removed);
if the rerun flag is set, the step only clears that flag
(`me ^^^ R_RERUN`, so `3` becomes `1`) and sends the same worker back to
run `call` again (`set i beforeWork`), spawning no new worker (the worker
list keeps its length). -/
theorem worker_cycle_step (s : RState) (i : Nat)
    (h : s.workers[i]? = some Phase.afterWork) :
    (s.me &&& R_RERUN = 0 →
      step s (Ev.check i) =
        some { s with me := 0, gen := s.gen + 1, workers := s.workers.eraseIdx i }
      ∧ ∀ g0, s.waiter = WaiterPhase.waiting g0 → g0 ≤ s.gen →
          step (checkStep s i) Ev.waitEnd =
            some { checkStep s i with waiter := WaiterPhase.released })
    ∧ (s.me &&& R_RERUN ≠ 0 →
      step s (Ev.check i) =
        some { s with me := s.me ^^^ R_RERUN,
                      workers := s.workers.set i Phase.beforeWork }
      ∧ (s.workers.set i Phase.beforeWork).length = s.workers.length) := by
  constructor
  · intro h0
    constructor
    · simp only [step, checkStep]
      rw [if_pos h, if_pos h0]
    · intro g0 hw hle
      have hcs : checkStep s i =
          { s with me := 0, gen := s.gen + 1, workers := s.workers.eraseIdx i } := by
        simp only [checkStep]
        rw [if_pos h0]
      rw [hcs]
      simp only [step, hw]
      rw [if_pos (by omega)]
  · intro h0
    constructor
    · simp only [step, checkStep]
      rw [if_pos h, if_neg h0]
    · simp

/-- Witness for C4: both branches of the cycle step at concrete states,
plus the release of a waiter blocked on the closing channel. -/
theorem worker_cycle_step_witness :
    step sW1 (Ev.check 0) =
      some { sW1 with me := 0, gen := sW1.gen + 1, workers := sW1.workers.eraseIdx 0 }
    ∧ step (checkStep sW1 0) Ev.waitEnd =
      some { checkStep sW1 0 with waiter := WaiterPhase.released }
    ∧ step sR3 (Ev.check 0) =
      some { sR3 with me := sR3.me ^^^ R_RERUN,
                      workers := sR3.workers.set 0 Phase.beforeWork } :=
  ⟨((worker_cycle_step sW1 0 rfl).1 (by decide)).1,
   ((worker_cycle_step sW1 0 rfl).1 (by decide)).2 0 rfl (by decide),
   ((worker_cycle_step sR3 0 rfl).2 (by decide)).1⟩

/-- C3, counterexample: `Wait()` on a freshly constructed instance on
which `Run()` has never been called blocks forever.  `done` is created
unsignalled and nothing ever sends on it, so after `waitBegin` at `init`
no event other than `run` is even enabled, and along every schedule
without a `run` the waiter stays blocked — `Wait()` does not return,
contradicting the claim that it does not block indefinitely. -/
theorem idle_wait_blocks_forever_counterexample :
    step init Ev.waitBegin = some initW
    ∧ ∀ t s', Ev.run ∉ t → execFrom initW t = some s' →
        s'.waiter = WaiterPhase.waiting 0 := by
  refine ⟨by decide, ?_⟩
  intro t s' hnr hx
  cases t with
  | nil =>
      simp [execFrom] at hx
      subst hx
      rfl
  | cons e t' =>
      obtain ⟨v, hv, hx'⟩ := execFrom_cons hx
      cases e with
      | run => exact absurd (List.mem_cons_self _ _) hnr
      | workStart i => simp [step, initW] at hv
      | workEnd i => simp [step, initW] at hv
      | check i => simp [step, initW] at hv
      | waitBegin => simp [step, initW] at hv
      | waitEnd => simp [step, initW] at hv

/-- C3, amended: `Wait()` called when the instance is IDLE (in particular
on a fresh instance) blocks until the next run-cycle completes, rather
than returning: along every schedule it is released only in a state whose
channel generation has advanced (a run-cycle closed the channel
meanwhile), and such a release does happen once `Run()` is called and its
cycle completes. -/
theorem idle_wait_blocks_until_cycle :
    (∀ t s', execFrom initW t = some s' → s'.waiter = WaiterPhase.released →
        0 < s'.gen)
    ∧ (∃ t s', execFrom initW t = some s' ∧ s'.waiter = WaiterPhase.released ∧
        s'.runCount = 1) := by
  constructor
  · intro t s' hx hrel
    exact exec_released_gen t (by decide) rfl hx hrel
  · exact ⟨[Ev.run, Ev.workStart 0, Ev.workEnd 0, Ev.check 0, Ev.waitEnd],
      { me := 0, workers := [], gen := 1, runCount := 1,
        waiter := WaiterPhase.released },
      by decide, rfl, rfl⟩

/-- Witness for the amended C3 at the canonical releasing schedule. -/
theorem idle_wait_blocks_until_cycle_witness :
    0 < (RState.mk 0 [] 1 1 WaiterPhase.released).gen :=
  idle_wait_blocks_until_cycle.1
    [Ev.run, Ev.workStart 0, Ev.workEnd 0, Ev.check 0, Ev.waitEnd]
    (RState.mk 0 [] 1 1 WaiterPhase.released) (by decide) rfl

/-- C6: wait correctness.  A caller performs `Run()` (step `h1`) and then
`Wait()` (step `h3`, with arbitrary interleaving `t2` between them), and
no further `run` occurs concurrently with the wait (`t3`).  The value
`s1.runCount + remExecs s1` counts every execution that must complete
before the cycle this `Run()` started or joined can end — including the
execution resulting from that `Run()` (the original run or its coalesced
rerun).  If the `Wait()` has returned (`hrel`), at least that many
executions of `call` have fully completed. -/
theorem wait_correctness (s0 s1 s2 s3w s4 : RState) (t2 t3 : List Ev)
    (h0 : Reachable s0) (h1 : step s0 Ev.run = some s1)
    (h2 : execFrom s1 t2 = some s2) (h3 : step s2 Ev.waitBegin = some s3w)
    (_hnr : Ev.run ∉ t3) (h4 : execFrom s3w t3 = some s4)
    (hrel : s4.waiter = WaiterPhase.released) :
    s1.runCount + remExecs s1 ≤ s4.runCount := by
  have hI0 := reachable_inv h0
  have hI1 := step_inv hI0 h1
  have hI2 := (exec_facts t2 hI1 h2).1
  have hI3 := step_inv hI2 h3
  simp only [step] at h3
  split at h3
  · rename_i hw2
    simp only [Option.some.injEq] at h3
    subst h3
    refine exec_wait_bound t3 hI3 rfl h4 ?_ ?_ hrel
    · exact (exec_facts t2 hI1 h2).2.1
    · intro hlt
      exact absurd hlt (lt_irrefl _)
  · exact Option.noConfusion h3

/-- Witness for C6: run, wait, then let the worker finish and be
released; one execution is complete when the wait returns. -/
theorem wait_correctness_witness :
    sA.runCount + remExecs sA ≤ (RState.mk 0 [] 1 1 WaiterPhase.released).runCount := by
  have h1 : step init Ev.run = some sA := by decide
  have h3 : step sA Ev.waitBegin =
      some (RState.mk 1 [Phase.beforeWork] 0 0 (WaiterPhase.waiting 0)) := by decide
  exact wait_correctness init sA sA
    (RState.mk 1 [Phase.beforeWork] 0 0 (WaiterPhase.waiting 0))
    (RState.mk 0 [] 1 1 WaiterPhase.released)
    [] [Ev.workStart 0, Ev.workEnd 0, Ev.check 0, Ev.waitEnd]
    Reachable.start h1 rfl h3 (by decide) (by decide) rfl

/-- C7: no request is dropped.  After any `Run()` call (from any reachable
state), every schedule that brings the instance back to rest (no worker
left) contains a `workStart` — an execution of `call` beginning at or
after the call — followed later by a `workEnd` completing an execution:
either the call launched the worker itself or it set the rerun flag,
which forces the active worker to run `call` at least once more before
going IDLE. -/
theorem no_request_dropped (s0 s1 sf : RState) (t : List Ev)
    (h0 : Reachable s0) (h1 : step s0 Ev.run = some s1)
    (ht : execFrom s1 t = some sf) (hidle : sf.workers = []) :
    ∃ t1 i t2, t = t1 ++ Ev.workStart i :: t2 ∧ ∃ j, Ev.workEnd j ∈ t2 := by
  have hI0 := reachable_inv h0
  have hI1 := step_inv hI0 h1
  have hp : 1 ≤ pendingStarts s1 := by
    rcases trans_enum hI0 h1 with
      ⟨he, h0', hw, rfl⟩ | ⟨he, h0', rfl⟩ | ⟨he, _, _, _⟩ | ⟨he, _, _, _⟩ |
      ⟨he, _, _, _⟩ | ⟨he, _, _, _⟩ | ⟨he, _, _⟩ | ⟨g0, he, _, _, _⟩
    · simp [pendingStarts, phaseNotStarted, hw, R_RERUN]
    · rcases h0' with h0' | h0' <;>
        simp [pendingStarts, phaseNotStarted, h0', R_RERUN]
    all_goals exact Ev.noConfusion he
  exact exec_start_end_decomp t hI1 hp ht hidle

/-- Witness for C7: a single `Run()` from idle and the canonical schedule
to completion decomposes around its `workStart`. -/
theorem no_request_dropped_witness :
    ∃ t1 i t2, ([Ev.workStart 0, Ev.workEnd 0, Ev.check 0] : List Ev) =
        t1 ++ Ev.workStart i :: t2 ∧ ∃ j, Ev.workEnd j ∈ t2 := by
  have h1 : step init Ev.run = some sA := by decide
  exact no_request_dropped init sA sIdle1 [Ev.workStart 0, Ev.workEnd 0, Ev.check 0]
    Reachable.start h1 (by decide) rfl

/-- C10: when a run-cycle ends, `threadRun` closes `done` and immediately
replaces it with a fresh unsignalled channel under the same lock, so a
`Wait()` that begins after the cycle completed (instance IDLE again,
`0 < gen` recording the earlier close) reads the new channel: its receive
is not enabled — it is not released by the previous cycle's already-closed
channel — and it is released only in a state whose generation has advanced
again, i.e. only after the next run-cycle completes. -/
theorem wait_after_idle_blocks_until_next_cycle (s s' : RState)
    (h : Reachable s) (_hidle : s.me = 0) (_hg : 0 < s.gen)
    (hw : s.waiter = WaiterPhase.notStarted)
    (hb : step s Ev.waitBegin = some s') :
    step s' Ev.waitEnd = none
    ∧ ∀ t s'', execFrom s' t = some s'' → s''.waiter = WaiterPhase.released →
        s.gen < s''.gen := by
  have hI := reachable_inv h
  simp only [step, hw, Option.some.injEq] at hb
  subst hb
  constructor
  · simp [step]
  · intro t s'' hx hrel
    have hIs' : Inv { s with waiter := WaiterPhase.waiting s.gen } :=
      ⟨hI.1, hI.2.1, hI.2.2⟩
    exact exec_released_gen t hIs' rfl hx hrel

/-- Witness for C10 at the idle state after one completed cycle: the
fresh waiter is not releasable. -/
theorem wait_after_idle_witness :
    step { sIdle1 with waiter := WaiterPhase.waiting 1 } Ev.waitEnd = none := by
  have h1 : step init Ev.run = some sA := by decide
  have h2 : step sA (Ev.workStart 0) = some sB := by decide
  have h3 : step sB (Ev.workEnd 0) =
      some (RState.mk 1 [Phase.afterWork] 0 1 WaiterPhase.notStarted) := by decide
  have h4 : step (RState.mk 1 [Phase.afterWork] 0 1 WaiterPhase.notStarted)
      (Ev.check 0) = some sIdle1 := by decide
  have hr : Reachable sIdle1 :=
    Reachable.next (Reachable.next (Reachable.next (Reachable.next
      Reachable.start h1) h2) h3) h4
  exact (wait_after_idle_blocks_until_next_cycle sIdle1
    { sIdle1 with waiter := WaiterPhase.waiting 1 }
    hr rfl (by decide) rfl (by decide)).1

/-- C1: burst coalescing.  From a fresh instance, one `Run()` starts the
worker; any number `n ≥ 2` of further `Run()` calls issued while the
worker is active (state not IDLE) all collapse into the single coalesced
state `s3` (first conjunct).  From there, with no further `Run()`, every
schedule that brings the instance to rest yields exactly `2` completed
executions of `call` — the original plus exactly one coalesced rerun,
never zero extra and never more than one extra, regardless of `n` (second
conjunct) — and such a completion schedule exists (third conjunct). -/
theorem burst_coalescing (n : Nat) (hn : 2 ≤ n) :
    execFrom init (Ev.run :: Ev.workStart 0 :: List.replicate n Ev.run) = some s3
    ∧ (∀ t s', Ev.run ∉ t → execFrom s3 t = some s' → s'.workers = [] →
        s'.runCount = 2)
    ∧ (∃ t s', Ev.run ∉ t ∧ execFrom s3 t = some s' ∧ s'.me = 0 ∧
        s'.workers = [] ∧ s'.runCount = 2) := by
  refine ⟨?_, ?_, ?_⟩
  · obtain ⟨m, rfl⟩ : ∃ m, n = m + 1 := ⟨n - 1, by omega⟩
    have h1 : step init Ev.run = some sA := by decide
    have h2 : step sA (Ev.workStart 0) = some sB := by decide
    have h3 : step sB Ev.run = some s3 := by decide
    simp only [List.replicate_succ, execFrom, h1, h2, h3]
    exact run_fixed_s3 m
  · intro t s' hnr hx hwf
    have hI3 : Inv s3 := by decide
    have hconst := exec_const_of_noRun t hI3 hnr hx
    obtain ⟨hiff, hlen, hme⟩ := (exec_facts t hI3 hx).1
    have hm0 : s'.me = 0 := by
      rcases hme with h0 | h0 | h0
      · exact h0
      · exact absurd (hiff.mp (by rw [h0]; decide)) (by simp [hwf])
      · exact absurd (hiff.mp (by rw [h0]; decide)) (by simp [hwf])
    have h3 : remExecs s' = 0 := by simp [remExecs, hm0, hwf, R_RERUN]
    have h4 : s3.runCount + remExecs s3 = 2 := by decide
    omega
  · exact ⟨[Ev.workEnd 0, Ev.check 0, Ev.workStart 0, Ev.workEnd 0, Ev.check 0],
      { me := 0, workers := [], gen := 1, runCount := 2,
        waiter := WaiterPhase.notStarted },
      by decide, by decide, rfl, rfl, rfl⟩

/-- Witness for C1: a burst of two redundant calls during the run, then
the canonical completion schedule, ends with exactly two executions. -/
theorem burst_coalescing_witness :
    (RState.mk 0 [] 1 2 WaiterPhase.notStarted).runCount = 2 :=
  (burst_coalescing 2 (by decide)).2.1
    [Ev.workEnd 0, Ev.check 0, Ev.workStart 0, Ev.workEnd 0, Ev.check 0]
    (RState.mk 0 [] 1 2 WaiterPhase.notStarted) (by decide) (by decide) rfl


end Rescheduler
